import Mathlib

set_option maxHeartbeats 1000000
set_option maxRecDepth 8000

/-!
Shallow embedding of the go-kelips core (keyspace partitioner, affinity-group
membership, tuple directory, local-group facade) with proofs of its
specification properties.

Go byte slices (`[]byte`) are modelled as `List Nat` whose entries are below
256; Go maps are modelled as association lists; in-place mutation of a group
becomes explicit state passing; `time.Now()` becomes an explicit `now`
argument.
-/

namespace Kelips

/-- The comparison `bytes.Compare` from the Go standard library: lexicographic
comparison of byte slices, where a proper prefix is smaller. -/
def bytesCompare : List Nat → List Nat → Ordering
  | [], [] => .eq
  | [], _ :: _ => .lt
  | _ :: _, [] => .gt
  | a :: as, b :: bs =>
    if a < b then .lt else if b < a then .gt else bytesCompare as bs

/-- Strict order induced by `bytesCompare`. -/
def bytesLt (x y : List Nat) : Prop := bytesCompare x y = .lt

/-- Reflexive order induced by `bytesCompare`. -/
def bytesLe (x y : List Nat) : Prop := bytesCompare x y ≠ .gt

instance (x y : List Nat) : Decidable (bytesLt x y) := by unfold bytesLt; infer_instance

instance (x y : List Nat) : Decidable (bytesLe x y) := by unfold bytesLe; infer_instance

/-- Fuel-indexed helper for `big.Int.Bytes()`; the fuel only makes the
recursion structural (so that concrete values reduce in the kernel), and `n`
itself is always enough fuel because the argument shrinks by a factor of 256
each step. -/
def natToBytesBEAux : Nat → Nat → List Nat
  | 0, _ => []
  | fuel + 1, n => if n = 0 then [] else natToBytesBEAux fuel (n / 256) ++ [n % 256]

/-- The method `Bytes()` of `math/big.Int`: minimal big-endian base-256
representation of a natural number (empty for zero). -/
def natToBytesBE (n : Nat) : List Nat := natToBytesBEAux n n

theorem natToBytesBEAux_fuel : ∀ f1 f2 n, n ≤ f1 → n ≤ f2 →
    natToBytesBEAux f1 n = natToBytesBEAux f2 n := by
  intro f1
  induction f1 with
  | zero =>
    intro f2 n h1 h2
    have hn : n = 0 := by omega
    subst hn
    cases f2 with
    | zero => rfl
    | succ f2 => simp [natToBytesBEAux]
  | succ f1 ih =>
    intro f2 n h1 h2
    by_cases hn : n = 0
    · subst hn
      cases f2 with
      | zero => simp [natToBytesBEAux]
      | succ f2 => simp [natToBytesBEAux]
    · have hn1 : 1 ≤ n := Nat.pos_of_ne_zero hn
      cases f2 with
      | zero => omega
      | succ f2 =>
        simp only [natToBytesBEAux, if_neg hn]
        rw [ih f2 (n / 256) (by omega) (by omega)]

/-- The unfolding equation of `natToBytesBE`, matching the recursion of the
Go source. -/
theorem natToBytesBE_eq (n : Nat) :
    natToBytesBE n = if n = 0 then [] else natToBytesBE (n / 256) ++ [n % 256] := by
  by_cases hn : n = 0
  · subst hn
    simp [natToBytesBE, natToBytesBEAux]
  · rw [if_neg hn]
    unfold natToBytesBE
    cases n with
    | zero => exact absurd rfl hn
    | succ m =>
      simp only [natToBytesBEAux, if_neg hn]
      rw [natToBytesBEAux_fuel m ((m + 1) / 256) ((m + 1) / 256) (by omega) (le_refl _)]

/-- Numeric value of a big-endian byte sequence. -/
def fromBytesBE : List Nat → Nat
  | [] => 0
  | b :: bs => b * 256 ^ bs.length + fromBytesBE bs

/-- Well-formed byte sequences have all entries below 256. -/
def isBytes (x : List Nat) : Prop := ∀ b ∈ x, b < 256

instance (x : List Nat) : Decidable (isBytes x) := by unfold isBytes; infer_instance

theorem bytesCompare_self (x : List Nat) : bytesCompare x x = .eq := by
  induction x with
  | nil => rfl
  | cons a as ih => simp [bytesCompare, ih]

theorem bytesCompare_eq_iff {x y : List Nat} : bytesCompare x y = .eq ↔ x = y := by
  constructor
  · intro h
    induction x generalizing y with
    | nil => cases y with
      | nil => rfl
      | cons b bs => simp [bytesCompare] at h
    | cons a as ih =>
      cases y with
      | nil => simp [bytesCompare] at h
      | cons b bs =>
        by_cases hab : a < b
        · simp [bytesCompare, hab] at h
        · by_cases hba : b < a
          · simp [bytesCompare, hab, hba] at h
          · have hab2 : a = b := Nat.le_antisymm (Nat.not_lt.mp hba) (Nat.not_lt.mp hab)
            simp [bytesCompare, hab, hba] at h
            simp [hab2, ih h]
  · intro h; subst h; exact bytesCompare_self x

theorem bytesCompare_swap (x y : List Nat) :
    bytesCompare y x = (bytesCompare x y).swap := by
  induction x generalizing y with
  | nil => cases y <;> rfl
  | cons a as ih =>
    cases y with
    | nil => rfl
    | cons b bs =>
      by_cases hab : a < b
      · have hba : ¬ b < a := Nat.lt_asymm hab
        simp [bytesCompare, hab, hba, Ordering.swap]
      · by_cases hba : b < a
        · simp [bytesCompare, hab, hba, Ordering.swap]
        · simp [bytesCompare, hab, hba, ih bs]

theorem bytesLt_trans : ∀ x y z : List Nat, bytesLt x y → bytesLt y z → bytesLt x z := by
  unfold bytesLt
  intro x
  induction x with
  | nil =>
    intro y z h1 h2
    cases z with
    | nil =>
      cases y with
      | nil => exact h1
      | cons b bs => simp [bytesCompare] at h2
    | cons c cs => rfl
  | cons a as ih =>
    intro y z h1 h2
    cases y with
    | nil => simp [bytesCompare] at h1
    | cons b bs =>
      cases z with
      | nil => simp [bytesCompare] at h2
      | cons c cs =>
        by_cases hab : a < b
        · by_cases hbc : b < c
          · simp [bytesCompare, Nat.lt_trans hab hbc]
          · by_cases hcb : c < b
            · simp [bytesCompare, hbc, hcb] at h2
            · have hbceq : b = c := Nat.le_antisymm (Nat.not_lt.mp hcb) (Nat.not_lt.mp hbc)
              subst hbceq
              simp [bytesCompare, hab]
        · by_cases hba : b < a
          · simp [bytesCompare, hab, hba] at h1
          · have habeq : a = b := Nat.le_antisymm (Nat.not_lt.mp hba) (Nat.not_lt.mp hab)
            subst habeq
            simp [bytesCompare, hab] at h1
            by_cases hac : a < c
            · simp [bytesCompare, hac]
            · by_cases hca : c < a
              · simp [bytesCompare, hac, hca] at h2
              · have haceq : a = c := Nat.le_antisymm (Nat.not_lt.mp hca) (Nat.not_lt.mp hac)
                subst haceq
                simp [bytesCompare, hac] at h2 ⊢
                exact ih bs cs h1 h2

theorem bytesLe_iff {x y : List Nat} : bytesLe x y ↔ bytesLt x y ∨ x = y := by
  unfold bytesLe bytesLt
  rcases h : bytesCompare x y with _ | _ | _
  · simp [h]
  · have hxy : x = y := bytesCompare_eq_iff.mp h
    simp [h, hxy]
  · constructor
    · intro hc; exact absurd rfl hc
    · rintro (hc | rfl)
      · exact Ordering.noConfusion hc
      · intro hgg
        rw [bytesCompare_self] at h
        exact Ordering.noConfusion h

theorem bytesLt_irrefl (x : List Nat) : ¬ bytesLt x x := by
  unfold bytesLt; simp [bytesCompare_self]

theorem bytesLt_of_le_of_lt {x y z : List Nat} (h1 : bytesLe x y) (h2 : bytesLt y z) :
    bytesLt x z := by
  rcases bytesLe_iff.mp h1 with h | h
  · exact bytesLt_trans x y z h h2
  · subst h; exact h2

theorem bytesLt_of_lt_of_le {x y z : List Nat} (h1 : bytesLt x y) (h2 : bytesLe y z) :
    bytesLt x z := by
  rcases bytesLe_iff.mp h2 with h | h
  · exact bytesLt_trans x y z h1 h
  · subst h; exact h1

theorem bytesLe_of_lt {x y : List Nat} (h : bytesLt x y) : bytesLe x y :=
  bytesLe_iff.mpr (Or.inl h)

theorem bytesLe_refl (x : List Nat) : bytesLe x x := bytesLe_iff.mpr (Or.inr rfl)

theorem bytesLe_trans {x y z : List Nat} (h1 : bytesLe x y) (h2 : bytesLe y z) :
    bytesLe x z := by
  rcases bytesLe_iff.mp h1 with h | h
  · exact bytesLe_of_lt (bytesLt_of_lt_of_le h h2)
  · subst h; exact h2

theorem bytesLe_antisymm {x y : List Nat} (h1 : bytesLe x y) (h2 : bytesLe y x) :
    x = y := by
  rcases bytesLe_iff.mp h1 with h | h
  · rcases bytesLe_iff.mp h2 with h2l | h2l
    · exact absurd (bytesLt_trans x y x h h2l) (bytesLt_irrefl x)
    · exact h2l.symm
  · exact h

theorem not_bytesLe_of_lt {x y : List Nat} (h : bytesLt y x) : ¬ bytesLe x y := by
  intro hle
  exact bytesLt_irrefl x (bytesLt_of_le_of_lt hle h)

theorem fromBytesBE_lt_pow {x : List Nat} (hx : isBytes x) :
    fromBytesBE x < 256 ^ x.length := by
  induction x with
  | nil => simp [fromBytesBE]
  | cons a as ih =>
    have ha : a < 256 := hx a (List.mem_cons_self a as)
    have has : isBytes as := fun b hb => hx b (List.mem_cons_of_mem a hb)
    have h1 : fromBytesBE as < 256 ^ as.length := ih has
    simp only [fromBytesBE, List.length_cons]
    calc a * 256 ^ as.length + fromBytesBE as
        < (a + 1) * 256 ^ as.length := by rw [Nat.succ_mul]; omega
      _ ≤ 256 * 256 ^ as.length := Nat.mul_le_mul_right _ ha
      _ = 256 ^ (as.length + 1) := by ring

theorem bytesCompare_lt_iff_val : ∀ x y : List Nat, x.length = y.length →
    isBytes x → isBytes y →
    (bytesCompare x y = .lt ↔ fromBytesBE x < fromBytesBE y) := by
  intro x
  induction x with
  | nil =>
    intro y hlen _ _
    cases y with
    | nil => simp [bytesCompare, fromBytesBE]
    | cons b bs => simp at hlen
  | cons a as ih =>
    intro y hlen hx hy
    cases y with
    | nil => simp at hlen
    | cons b bs =>
      have hlen2 : as.length = bs.length := by simpa using hlen
      have hxs : isBytes as := fun c hc => hx c (by simp [hc])
      have hys : isBytes bs := fun c hc => hy c (by simp [hc])
      have hvx : fromBytesBE as < 256 ^ as.length := fromBytesBE_lt_pow hxs
      have hvy : fromBytesBE bs < 256 ^ bs.length := fromBytesBE_lt_pow hys
      simp only [fromBytesBE, bytesCompare]
      rw [hlen2] at hvx ⊢
      by_cases hab : a < b
      · rw [if_pos hab]
        constructor
        · intro _
          calc a * 256 ^ bs.length + fromBytesBE as
              < (a + 1) * 256 ^ bs.length := by rw [Nat.succ_mul]; omega
            _ ≤ b * 256 ^ bs.length := Nat.mul_le_mul_right _ hab
            _ ≤ b * 256 ^ bs.length + fromBytesBE bs := Nat.le_add_right _ _
        · intro _; rfl
      · by_cases hba : b < a
        · rw [if_neg hab, if_pos hba]
          have hgt : b * 256 ^ bs.length + fromBytesBE bs
              < a * 256 ^ bs.length + fromBytesBE as := by
            calc b * 256 ^ bs.length + fromBytesBE bs
                < (b + 1) * 256 ^ bs.length := by rw [Nat.succ_mul]; omega
              _ ≤ a * 256 ^ bs.length := Nat.mul_le_mul_right _ hba
              _ ≤ a * 256 ^ bs.length + fromBytesBE as := Nat.le_add_right _ _
          constructor
          · intro hcon; exact Ordering.noConfusion hcon
          · intro hlt; exact absurd hlt (Nat.lt_asymm hgt)
        · have heq : a = b := Nat.le_antisymm (Nat.not_lt.mp hba) (Nat.not_lt.mp hab)
          subst heq
          rw [if_neg hab, if_neg hba, ih bs hlen2 hxs hys]
          omega

theorem natToBytesBE_isBytes : ∀ n, isBytes (natToBytesBE n) := by
  intro n
  induction n using Nat.strong_induction_on with
  | _ n ih =>
    rw [natToBytesBE_eq]
    by_cases h : n = 0
    · simp [h, isBytes]
    · rw [if_neg h]
      intro b hb
      rcases List.mem_append.mp hb with h1 | h1
      · exact ih (n / 256) (Nat.div_lt_self (Nat.pos_of_ne_zero h) (by norm_num)) b h1
      · have hb2 : b = n % 256 := by simpa using h1
        subst hb2
        exact Nat.mod_lt n (by norm_num)

theorem fromBytesBE_append (xs : List Nat) (b : Nat) :
    fromBytesBE (xs ++ [b]) = 256 * fromBytesBE xs + b := by
  induction xs with
  | nil => simp [fromBytesBE]
  | cons a as ih =>
    simp only [List.cons_append, fromBytesBE, ih, List.append_eq, List.length_append,
      List.length_cons, List.length_nil]
    ring

theorem fromBytesBE_natToBytesBE : ∀ n, fromBytesBE (natToBytesBE n) = n := by
  intro n
  induction n using Nat.strong_induction_on with
  | _ n ih =>
    rw [natToBytesBE_eq]
    by_cases h : n = 0
    · simp [h, fromBytesBE]
    · rw [if_neg h, fromBytesBE_append,
        ih (n / 256) (Nat.div_lt_self (Nat.pos_of_ne_zero h) (by norm_num))]
      omega

theorem natToBytesBE_length_le : ∀ k n, n < 256 ^ k → (natToBytesBE n).length ≤ k := by
  intro k
  induction k with
  | zero =>
    intro n hn
    simp [pow_zero, Nat.lt_one_iff] at hn
    simp [natToBytesBE_eq, hn]
  | succ k ih =>
    intro n hn
    rw [natToBytesBE_eq]
    by_cases h : n = 0
    · simp [h]
    · rw [if_neg h]
      simp only [List.length_append, List.length_cons, List.length_nil]
      have hdiv : n / 256 < 256 ^ k := by
        rw [Nat.div_lt_iff_lt_mul (by norm_num)]
        calc n < 256 ^ (k + 1) := hn
          _ = 256 ^ k * 256 := by ring
      have := ih (n / 256) hdiv
      omega

theorem natToBytesBE_length_ge : ∀ k n, 256 ^ k ≤ n → k + 1 ≤ (natToBytesBE n).length := by
  intro k
  induction k with
  | zero =>
    intro n hn
    simp [pow_zero] at hn
    rw [natToBytesBE_eq, if_neg (by omega)]
    simp
  | succ k ih =>
    intro n hn
    have hp : 0 < 256 ^ (k + 1) := pow_pos (by norm_num) (k + 1)
    have hn0 : n ≠ 0 := by omega
    rw [natToBytesBE_eq, if_neg hn0]
    simp only [List.length_append, List.length_cons, List.length_nil]
    have hdiv : 256 ^ k ≤ n / 256 := by
      rw [Nat.le_div_iff_mul_le (by norm_num)]
      calc 256 ^ k * 256 = 256 ^ (k + 1) := by ring
        _ ≤ n := hn
    have := ih (n / 256) hdiv
    omega

theorem natToBytesBE_length_eq {k n : Nat} (h1 : 256 ^ k ≤ n) (h2 : n < 256 ^ (k + 1)) :
    (natToBytesBE n).length = k + 1 :=
  Nat.le_antisymm (natToBytesBE_length_le (k + 1) n h2) (natToBytesBE_length_ge k n h1)

theorem fromBytesBE_replicate_zero (L : Nat) : fromBytesBE (List.replicate L 0) = 0 := by
  induction L with
  | zero => rfl
  | succ n ih => simp [List.replicate, fromBytesBE, ih]

theorem isBytes_replicate_zero (L : Nat) : isBytes (List.replicate L 0) := by
  intro b hb
  have hb0 : b = 0 := List.eq_of_mem_replicate hb
  omega

/-- An opaque network coordinate from the external `vivaldi` package; the core
only stores and clones it. -/
structure Coordinate where
  vec : List Int
deriving DecidableEq, Repr

/-- The method `Clone` of a coordinate: a value copy. -/
def Coordinate.clone (c : Coordinate) : Coordinate := c

/-- The fields of the external `hexatype.Node` used by this package: host
identifier (`Host()`), heartbeat counter, last-seen timestamp (UnixNano), and
last-known network coordinate. -/
structure Node where
  host : String
  heartbeats : Nat
  lastSeen : Int
  coordinates : Coordinate
deriving DecidableEq, Repr

/-- Lookup in a Go map modelled as an association list. -/
def mapLookup (k : String) : List (String × Node) → Option Node
  | [] => none
  | kv :: rest => if kv.1 = k then some kv.2 else mapLookup k rest

/-- Go map assignment `m[k] = v`: replace an existing binding in place, or add
a new one. -/
def mapInsert (k : String) (v : Node) : List (String × Node) → List (String × Node)
  | [] => [(k, v)]
  | kv :: rest => if kv.1 = k then (k, v) :: rest else kv :: mapInsert k v rest

/-- Go map deletion `delete(m, k)`: drops the binding of `k` (association
lists built by `mapInsert` bind each key at most once, so dropping every
binding of `k` is the same map). -/
def mapErase (k : String) (m : List (String × Node)) : List (String × Node) :=
  m.filter (fun kv => kv.1 ≠ k)

theorem mapLookup_mapInsert_self (k : String) (v : Node) :
    ∀ m, mapLookup k (mapInsert k v m) = some v := by
  intro m
  induction m with
  | nil => simp [mapInsert, mapLookup]
  | cons kv rest ih =>
    by_cases h : kv.1 = k
    · simp [mapInsert, h, mapLookup]
    · simp [mapInsert, h, mapLookup, ih]

theorem mapLookup_mapInsert_other {k k2 : String} (hne : k2 ≠ k) (v : Node) :
    ∀ m, mapLookup k2 (mapInsert k v m) = mapLookup k2 m := by
  intro m
  induction m with
  | nil => simp [mapInsert, mapLookup, Ne.symm hne]
  | cons kv rest ih =>
    by_cases h : kv.1 = k
    · subst h
      simp [mapInsert, mapLookup, hne, Ne.symm hne]
    · by_cases h2 : kv.1 = k2
      · simp [mapInsert, h, mapLookup, h2, hne, Ne.symm hne]
      · simp [mapInsert, h, mapLookup, h2, ih]

theorem mapLookup_mapErase_self (k : String) :
    ∀ m, mapLookup k (mapErase k m) = none := by
  intro m
  induction m with
  | nil => simp [mapErase, mapLookup]
  | cons kv rest ih =>
    by_cases h : kv.1 = k
    · simpa [mapErase, h, mapLookup] using ih
    · simpa [mapErase, h, mapLookup] using ih

theorem mapLookup_mapErase_other {k k2 : String} (hne : k2 ≠ k) :
    ∀ m, mapLookup k2 (mapErase k m) = mapLookup k2 m := by
  intro m
  induction m with
  | nil => simp [mapErase, mapLookup]
  | cons kv rest ih =>
    by_cases h : kv.1 = k
    · subst h
      simpa [mapErase, mapLookup, Ne.symm hne, hne] using ih
    · by_cases h2 : kv.1 = k2
      · simp [mapErase, h, mapLookup, h2, hne, Ne.symm hne]
      · simpa [mapErase, h, mapLookup, h2] using ih

/-- The type `affinityGroup` from the source: boundary id, group index, and the
membership map `m` (the lock is irrelevant in a sequential value model). -/
structure AffinityGroup where
  id : List Nat
  index : Nat
  m : List (String × Node)
deriving DecidableEq, Repr

/-- The constructor `newAffinityGroup`: empty membership. -/
def newAffinityGroup (id : List Nat) (index : Nat) : AffinityGroup :=
  { id := id, index := index, m := [] }

/-- The method `Nodes()`: the member node records as value copies. -/
def AffinityGroup.nodes (g : AffinityGroup) : List Node := g.m.map (fun kv => kv.2)

/-- The method `count()`: size of the membership map. -/
def AffinityGroup.count (g : AffinityGroup) : Nat := g.m.length

/-- The method `getNode`: lookup of a member by hostname. -/
def AffinityGroup.getNode (g : AffinityGroup) (hostname : String) : Option Node :=
  mapLookup hostname g.m

/-- Errors returned by the affinity-group methods: `errNodeExists` (the
AlreadyMember case) and the formatted "node not found" error (NotFound). -/
inductive GroupError
  | nodeExists
  | nodeNotFound (hostname : String)
deriving DecidableEq, Repr

/-- The method `addNode` as a state-passing translation: the receiver mutation
becomes the returned group state, `time.Now()` the explicit `now` argument. -/
def AffinityGroup.addNode (g : AffinityGroup) (node : Node) (force : Bool) (now : Int) :
    AffinityGroup × Option GroupError :=
  if (mapLookup node.host g.m).isSome && !force then
    (g, some .nodeExists)
  else
    ({ g with m := mapInsert node.host { node with lastSeen := now } g.m }, none)

/-- The method `pingNode`: increments the heartbeat counter, stamps last-seen,
and stores a clone of the supplied coordinate; `rtt` is accepted but unused. -/
def AffinityGroup.pingNode (g : AffinityGroup) (hostname : String) (coord : Coordinate)
    (rtt : Nat) (now : Int) : AffinityGroup × Option GroupError :=
  match mapLookup hostname g.m with
  | none => (g, some (.nodeNotFound hostname))
  | some node =>
    ({ g with
        m := mapInsert hostname
          { node with
              heartbeats := node.heartbeats + 1
              lastSeen := now
              coordinates := coord.clone } g.m }, none)

/-- The method `removeNode`. -/
def AffinityGroup.removeNode (g : AffinityGroup) (hostname : String) :
    AffinityGroup × Option GroupError :=
  if (mapLookup hostname g.m).isSome then
    ({ g with m := mapErase hostname g.m }, none)
  else
    (g, some (.nodeNotFound hostname))

/-- The function `genAffinityGroups`: computes the keyspace `2 ^ (hashSize*8)`,
divides it evenly by `numGroups`, gives group 0 the all-zero `hashSize`-byte id
and group `i ≥ 1` the minimal big-endian bytes (`big.Int.Bytes`) of
`i * groupSize`. -/
def genAffinityGroups (numGroups hashSize : Nat) : List AffinityGroup :=
  if numGroups = 0 then []
  else
    newAffinityGroup (List.replicate hashSize 0) 0 ::
      (List.range' 1 (numGroups - 1)).map
        (fun i => newAffinityGroup (natToBytesBE (i * (2 ^ (hashSize * 8) / numGroups))) i)

/-- Fuel-indexed halving loop of `affinityGroups.get`; the fuel only makes the
recursion structural, and the window length is always enough fuel because the
window strictly shrinks on every iteration. -/
def agGetLoopAux (l : Nat) (id : List Nat) : Nat → List AffinityGroup → Option AffinityGroup
  | 0, arr => arr[arr.length / 2]?
  | fuel + 1, arr =>
    if arr.length / 2 ≠ 0 ∧ arr.length / 2 ≠ l then
      match arr[arr.length / 2]? with
      | none => none
      | some g =>
        match bytesCompare id g.id with
        | .lt => agGetLoopAux l id fuel (arr.take (arr.length / 2))
        | .gt => agGetLoopAux l id fuel (arr.drop (arr.length / 2))
        | .eq => arr[arr.length / 2]?
    else
      arr[arr.length / 2]?

/-- The halving loop of `affinityGroups.get`: `l` is the length of the original
list (the variable `l` in the source) and the window `arr` shrinks by
reslicing; `none` models the index-out-of-range panic on an empty list. -/
def agGetLoop (l : Nat) (id : List Nat) (arr : List AffinityGroup) : Option AffinityGroup :=
  agGetLoopAux l id arr.length arr

theorem agGetLoopAux_fuel (l : Nat) (id : List Nat) : ∀ f1 f2 (arr : List AffinityGroup),
    arr.length ≤ f1 → arr.length ≤ f2 →
    agGetLoopAux l id f1 arr = agGetLoopAux l id f2 arr := by
  intro f1
  induction f1 with
  | zero =>
    intro f2 arr h1 h2
    have hlen : arr.length = 0 := by omega
    cases f2 with
    | zero => rfl
    | succ f2 =>
      simp only [agGetLoopAux]
      rw [if_neg (by omega)]
  | succ f1 ih =>
    intro f2 arr h1 h2
    cases f2 with
    | zero =>
      have hlen : arr.length = 0 := by omega
      simp only [agGetLoopAux]
      rw [if_neg (by omega)]
    | succ f2 =>
      simp only [agGetLoopAux]
      by_cases hc : arr.length / 2 ≠ 0 ∧ arr.length / 2 ≠ l
      · rw [if_pos hc, if_pos hc]
        rcases harr : arr[arr.length / 2]? with _ | g
        · rfl
        · dsimp only
          rcases hcmp : bytesCompare id g.id with _ | _ | _
          · dsimp only
            have ht : (arr.take (arr.length / 2)).length ≤ arr.length - 1 := by
              simp only [List.length_take]
              omega
            have ha : (arr.take (arr.length / 2)).length ≤ f1 := by omega
            have hb : (arr.take (arr.length / 2)).length ≤ f2 := by omega
            exact ih f2 (arr.take (arr.length / 2)) ha hb
          · rfl
          · dsimp only
            have hd : (arr.drop (arr.length / 2)).length ≤ arr.length - 1 := by
              simp only [List.length_drop]
              omega
            have ha : (arr.drop (arr.length / 2)).length ≤ f1 := by omega
            have hb : (arr.drop (arr.length / 2)).length ≤ f2 := by omega
            exact ih f2 (arr.drop (arr.length / 2)) ha hb
      · rw [if_neg hc, if_neg hc]

/-- The unfolding equation of `agGetLoop`, matching one iteration of the
halving loop of the Go source. -/
theorem agGetLoop_eq (l : Nat) (id : List Nat) (arr : List AffinityGroup) :
    agGetLoop l id arr =
      if arr.length / 2 ≠ 0 ∧ arr.length / 2 ≠ l then
        match arr[arr.length / 2]? with
        | none => none
        | some g =>
          match bytesCompare id g.id with
          | .lt => agGetLoop l id (arr.take (arr.length / 2))
          | .gt => agGetLoop l id (arr.drop (arr.length / 2))
          | .eq => arr[arr.length / 2]?
      else
        arr[arr.length / 2]? := by
  have h1 : agGetLoop l id arr = agGetLoopAux l id (arr.length + 1) arr := by
    unfold agGetLoop
    exact agGetLoopAux_fuel l id arr.length (arr.length + 1) arr (le_refl _) (by omega)
  rw [h1]
  simp only [agGetLoopAux]
  by_cases hc : arr.length / 2 ≠ 0 ∧ arr.length / 2 ≠ l
  · rw [if_pos hc, if_pos hc]
    rcases harr : arr[arr.length / 2]? with _ | g
    · rfl
    · dsimp only
      rcases hcmp : bytesCompare id g.id with _ | _ | _
      · dsimp only
        show agGetLoopAux l id arr.length (arr.take (arr.length / 2)) =
          agGetLoop l id (arr.take (arr.length / 2))
        unfold agGetLoop
        apply agGetLoopAux_fuel
        · simp only [List.length_take]
          omega
        · exact le_refl _
      · rfl
      · dsimp only
        show agGetLoopAux l id arr.length (arr.drop (arr.length / 2)) =
          agGetLoop l id (arr.drop (arr.length / 2))
        unfold agGetLoop
        apply agGetLoopAux_fuel
        · simp only [List.length_drop]
          omega
        · exact le_refl _
  · rw [if_neg hc, if_neg hc]

/-- The method `affinityGroups.get`: binary search for the affinity group of a
hash id, starting from the full group list. -/
def agGet (ct : List AffinityGroup) (id : List Nat) : Option AffinityGroup :=
  agGetLoop ct.length id ct

/-- One backward step of `nextClosestGroup`: from index `idx` move to
`ct[len(ct)-1]` when `idx = 0`, else to `ct[idx-1]`. -/
def prevGroup (ct : List AffinityGroup) (idx : Nat) : Option AffinityGroup :=
  if idx = 0 then ct[ct.length - 1]? else ct[idx - 1]?

/-- The retry loop of `affinityGroups.nextClosestGroup`: `fuel` bounds the
number of iterations (the source loop stops when it reaches the start index
again); the outer `none` is returned only on fuel exhaustion or an
out-of-range index, which cannot happen for well-formed group lists. -/
def nextClosestLoop (ct : List AffinityGroup) (startIdx : Nat) :
    AffinityGroup → Nat → Option (Option AffinityGroup)
  | _, 0 => none
  | group, fuel + 1 =>
    if group.nodes.length = 0 then
      match prevGroup ct group.index with
      | none => none
      | some g2 =>
        if g2.index ≠ startIdx then nextClosestLoop ct startIdx g2 fuel
        else some none
    else some (some group)

/-- The method `affinityGroups.nextClosestGroup`. -/
def nextClosestGroup (ct : List AffinityGroup) (g : AffinityGroup) :
    Option (Option AffinityGroup) :=
  nextClosestLoop ct g.index g (ct.length + 1)

/-- What a correct locate must return: a group of the list whose boundary is at
most the hash value and maximal among such boundaries. -/
def isClosest (ct : List AffinityGroup) (v : List Nat) (g : AffinityGroup) : Prop :=
  g ∈ ct ∧ bytesLe g.id v ∧ ∀ g2 ∈ ct, bytesLe g2.id v → bytesLe g2.id g.id

theorem sorted_head_le {l : List AffinityGroup} {h0 : AffinityGroup}
    (hsort : l.Pairwise (fun a b => bytesLt a.id b.id))
    (hh : l[0]? = some h0) {x : AffinityGroup} (hx : x ∈ l) :
    bytesLe h0.id x.id := by
  cases l with
  | nil => simp at hh
  | cons a rest =>
    have ha : a = h0 := by simpa using hh
    subst ha
    rcases List.mem_cons.mp hx with rfl | hx2
    · exact bytesLe_refl _
    · exact bytesLe_of_lt ((List.pairwise_cons.mp hsort).1 x hx2)

theorem agGetLoop_step {l : Nat} {id : List Nat} {arr : List AffinityGroup}
    (hc : arr.length / 2 ≠ 0 ∧ arr.length / 2 ≠ l) {g : AffinityGroup}
    (hg : arr[arr.length / 2]? = some g) :
    agGetLoop l id arr =
      match bytesCompare id g.id with
      | .lt => agGetLoop l id (arr.take (arr.length / 2))
      | .gt => agGetLoop l id (arr.drop (arr.length / 2))
      | .eq => arr[arr.length / 2]? := by
  rw [agGetLoop_eq, if_pos hc, hg]

theorem agGetLoop_closest : ∀ n (arr : List AffinityGroup) (l : Nat) (id : List Nat),
    arr.length = n → arr ≠ [] → arr.length ≤ l →
    arr.Pairwise (fun a b => bytesLt a.id b.id) →
    (∀ g0, arr[0]? = some g0 → bytesLe g0.id id) →
    ∃ g, agGetLoop l id arr = some g ∧ isClosest arr id g := by
  intro n
  induction n using Nat.strong_induction_on with
  | _ n ih =>
    intro arr l id hn hne hl hsort hhead
    have hlenpos : 0 < arr.length := List.length_pos.mpr hne
    by_cases hc : arr.length / 2 ≠ 0 ∧ arr.length / 2 ≠ l
    · have hi1 : 1 ≤ arr.length / 2 := Nat.pos_of_ne_zero hc.1
      have hmidlt : arr.length / 2 < arr.length := by omega
      have hgmid : arr[arr.length / 2]? = some (arr.get ⟨arr.length / 2, hmidlt⟩) :=
        List.getElem?_eq_getElem hmidlt
      set gmid := arr.get ⟨arr.length / 2, hmidlt⟩ with hgmiddef
      rw [agGetLoop_step hc hgmid]
      have hgmidmem : gmid ∈ arr := List.getElem_mem hmidlt
      have hsplit : arr.take (arr.length / 2) ++ arr.drop (arr.length / 2) = arr :=
        List.take_append_drop _ arr
      have hcross : ∀ x ∈ arr.take (arr.length / 2), ∀ y ∈ arr.drop (arr.length / 2),
          bytesLt x.id y.id := by
        have hs2 := hsort
        rw [← hsplit] at hs2
        exact fun x hx y hy => (List.pairwise_append.mp hs2).2.2 x hx y hy
      have hdrophead : (arr.drop (arr.length / 2))[0]? = some gmid := by
        rw [List.getElem?_drop]
        simpa using hgmid
      have hdropsort : (arr.drop (arr.length / 2)).Pairwise
          (fun a b => bytesLt a.id b.id) :=
        hsort.sublist (List.drop_sublist _ _)
      have hgmid_le_drop : ∀ y ∈ arr.drop (arr.length / 2), bytesLe gmid.id y.id :=
        fun y hy => sorted_head_le hdropsort hdrophead hy
      rcases hcmp : bytesCompare id gmid.id with _ | _ | _
      · -- id is strictly below the midpoint boundary: recurse on the left half
        have htlen : (arr.take (arr.length / 2)).length = arr.length / 2 := by
          simp [List.length_take]
          omega
        have htne : arr.take (arr.length / 2) ≠ [] := by
          intro hcon
          rw [hcon] at htlen
          simp at htlen
          omega
        obtain ⟨g, hg, hgmem, hgle, hgmax⟩ :=
          ih (arr.length / 2) (by omega) (arr.take (arr.length / 2)) l id htlen htne
            (by omega) (hsort.sublist (List.take_sublist _ _))
            (by
              intro g0 hg0
              apply hhead
              rw [List.getElem?_take] at hg0
              split at hg0
              · exact hg0
              · exact Option.noConfusion hg0)
        refine ⟨g, hg, (List.take_sublist _ _).subset hgmem, hgle, ?_⟩
        intro g2 hg2 hg2le
        rcases List.mem_append.mp (by rw [hsplit]; exact hg2) with hg2t | hg2d
        · exact hgmax g2 hg2t hg2le
        · exfalso
          have hlt : bytesLt id g2.id :=
            bytesLt_of_lt_of_le hcmp (hgmid_le_drop g2 hg2d)
          exact not_bytesLe_of_lt hlt hg2le
      · -- id equals the midpoint boundary: return the midpoint
        have hideq : id = gmid.id := bytesCompare_eq_iff.mp hcmp
        refine ⟨gmid, hgmid, hgmidmem, ?_, ?_⟩
        · rw [hideq]; exact bytesLe_refl _
        · intro g2 _ hg2le
          rw [← hideq]; exact hg2le
      · -- id is above the midpoint boundary: recurse on the right half
        have hdlen : (arr.drop (arr.length / 2)).length = arr.length - arr.length / 2 :=
          List.length_drop _ _
        have hdne : arr.drop (arr.length / 2) ≠ [] := by
          intro hcon
          rw [hcon] at hdlen
          simp at hdlen
          omega
        have hgmidle : bytesLe gmid.id id := by
          apply bytesLe_of_lt
          unfold bytesLt
          rw [bytesCompare_swap, hcmp]
          rfl
        obtain ⟨g, hg, hgmem, hgle, hgmax⟩ :=
          ih (arr.length - arr.length / 2) (by omega) (arr.drop (arr.length / 2)) l id
            hdlen hdne (by omega) hdropsort
            (by
              intro g0 hg0
              rw [hdrophead] at hg0
              cases hg0
              exact hgmidle)
        refine ⟨g, hg, (List.drop_sublist _ _).subset hgmem, hgle, ?_⟩
        intro g2 hg2 hg2le
        rcases List.mem_append.mp (by rw [hsplit]; exact hg2) with hg2t | hg2d
        · exact bytesLe_of_lt (bytesLt_of_lt_of_le (hcross g2 hg2t g hgmem)
            (bytesLe_refl _))
        · exact hgmax g2 hg2d hg2le
    · rw [agGetLoop_eq, if_neg hc]
      -- the loop exits immediately: the window must be a single group
      have h0 : arr.length / 2 = 0 := by
        by_contra h0
        have h2 : arr.length / 2 = l := by
          rcases Decidable.not_and_iff_or_not.mp hc with h | h
          · exact absurd h0 (by simpa using h)
          · simpa using h
        omega
      have hlen1 : arr.length = 1 := by omega
      cases arr with
      | nil => simp at hlen1
      | cons a rest =>
        have hrest : rest = [] := by simpa using hlen1
        subst hrest
        refine ⟨a, by simp [h0], List.mem_singleton_self a, hhead a (by simp [h0]), ?_⟩
        intro g2 hg2 _
        have : g2 = a := by simpa using hg2
        subst this
        exact bytesLe_refl _

theorem bytesEq_of_val_eq {x y : List Nat} (hlen : x.length = y.length)
    (hx : isBytes x) (hy : isBytes y) (h : fromBytesBE x = fromBytesBE y) :
    x = y := by
  rcases hcmp : bytesCompare x y with _ | _ | _
  · have := (bytesCompare_lt_iff_val x y hlen hx hy).mp hcmp
    omega
  · exact bytesCompare_eq_iff.mp hcmp
  · have h2 : bytesCompare y x = .lt := by rw [bytesCompare_swap, hcmp]; rfl
    have := (bytesCompare_lt_iff_val y x hlen.symm hy hx).mp h2
    omega

theorem bytesLe_of_val_le {x y : List Nat} (hlen : x.length = y.length)
    (hx : isBytes x) (hy : isBytes y) (h : fromBytesBE x ≤ fromBytesBE y) :
    bytesLe x y := by
  rcases Nat.lt_or_ge (fromBytesBE x) (fromBytesBE y) with hlt | hge
  · exact bytesLe_of_lt ((bytesCompare_lt_iff_val x y hlen hx hy).mpr hlt)
  · have heq : x = y := bytesEq_of_val_eq hlen hx hy (le_antisymm h hge)
    rw [heq]
    exact bytesLe_refl y

theorem keyspace_eq (L : Nat) : 2 ^ (L * 8) = 256 ^ L := by
  rw [show (256 : Nat) = 2 ^ 8 by norm_num, ← pow_mul, Nat.mul_comm]

theorem groupSize_lb {N L : Nat} (hN : N ≤ 256) (hN1 : 1 ≤ N) (hL : 1 ≤ L) :
    256 ^ (L - 1) ≤ 2 ^ (L * 8) / N := by
  rw [keyspace_eq]
  have h1 : 256 ^ L / 256 ≤ 256 ^ L / N := Nat.div_le_div_left hN (by omega)
  have h2 : 256 ^ L / 256 = 256 ^ (L - 1) := by
    conv_lhs => rw [show L = (L - 1) + 1 by omega]
    rw [pow_succ, Nat.mul_div_cancel _ (by norm_num)]
  omega

theorem groupVal_lb {N L i : Nat} (hN : N ≤ 256) (hN1 : 1 ≤ N) (hL : 1 ≤ L)
    (hi : 1 ≤ i) : 256 ^ (L - 1) ≤ i * (2 ^ (L * 8) / N) :=
  le_trans (groupSize_lb hN hN1 hL) (Nat.le_mul_of_pos_left _ hi)

theorem groupSize_pos {N L : Nat} (hN : N ≤ 256) (hN1 : 1 ≤ N) (hL : 1 ≤ L) :
    1 ≤ 2 ^ (L * 8) / N :=
  le_trans (pow_pos (show (0 : Nat) < 256 by norm_num) (L - 1)) (groupSize_lb hN hN1 hL)

theorem groupVal_ub {N L i : Nat} (hN1 : 1 ≤ N) (hN : N ≤ 256) (hL : 1 ≤ L)
    (hi : i < N) : i * (2 ^ (L * 8) / N) < 256 ^ L := by
  have hgsz1 : 1 ≤ 2 ^ (L * 8) / N := groupSize_pos hN hN1 hL
  have hmul : i * (2 ^ (L * 8) / N) + 2 ^ (L * 8) / N ≤ N * (2 ^ (L * 8) / N) := by
    have h1 : (i + 1) * (2 ^ (L * 8) / N) ≤ N * (2 ^ (L * 8) / N) :=
      Nat.mul_le_mul_right _ (by omega)
    rw [Nat.succ_mul] at h1
    exact h1
  have hNg : N * (2 ^ (L * 8) / N) ≤ 2 ^ (L * 8) := by
    rw [Nat.mul_comm]
    exact Nat.div_mul_le_self _ _
  have hK := keyspace_eq L
  omega

theorem genId_length {N L i : Nat} (hN1 : 1 ≤ N) (hN : N ≤ 256) (hL : 1 ≤ L)
    (hi : 1 ≤ i) (hiN : i < N) :
    (natToBytesBE (i * (2 ^ (L * 8) / N))).length = L := by
  have h1 := groupVal_lb hN hN1 hL hi
  have h2 := groupVal_ub hN1 hN hL hiN
  have h3 : 256 ^ ((L - 1) + 1) = 256 ^ L := by
    congr 1
    omega
  have h4 := natToBytesBE_length_eq h1 (by rw [h3]; exact h2)
  omega

theorem genId_lt {N L i j : Nat} (hN1 : 1 ≤ N) (hN : N ≤ 256) (hL : 1 ≤ L)
    (hi : 1 ≤ i) (hij : i < j) (hj : j < N) :
    bytesLt (natToBytesBE (i * (2 ^ (L * 8) / N)))
      (natToBytesBE (j * (2 ^ (L * 8) / N))) := by
  unfold bytesLt
  have hleni := genId_length hN1 hN hL hi (by omega)
  have hlenj := genId_length hN1 hN hL (by omega) hj
  rw [bytesCompare_lt_iff_val _ _ (by rw [hleni, hlenj]) (natToBytesBE_isBytes _)
    (natToBytesBE_isBytes _), fromBytesBE_natToBytesBE, fromBytesBE_natToBytesBE]
  exact (Nat.mul_lt_mul_right (groupSize_pos hN hN1 hL)).mpr hij

theorem zeroId_lt_genId {N L i : Nat} (hN1 : 1 ≤ N) (hN : N ≤ 256) (hL : 1 ≤ L)
    (hi : 1 ≤ i) (hiN : i < N) :
    bytesLt (List.replicate L 0) (natToBytesBE (i * (2 ^ (L * 8) / N))) := by
  unfold bytesLt
  have hleni := genId_length hN1 hN hL hi hiN
  rw [bytesCompare_lt_iff_val _ _ (by simp [hleni]) (isBytes_replicate_zero L)
    (natToBytesBE_isBytes _), fromBytesBE_replicate_zero, fromBytesBE_natToBytesBE]
  have h1 := groupVal_lb hN hN1 hL hi
  have hpos : 0 < 256 ^ (L - 1) := pow_pos (by norm_num) _
  omega

theorem genAffinityGroups_length {N L : Nat} (hN1 : 1 ≤ N) :
    (genAffinityGroups N L).length = N := by
  rw [genAffinityGroups, if_neg (by omega)]
  simp only [List.length_cons, List.length_map, List.length_range']
  omega

theorem genAffinityGroups_head {N L : Nat} (hN1 : 1 ≤ N) :
    (genAffinityGroups N L)[0]? = some (newAffinityGroup (List.replicate L 0) 0) := by
  rw [genAffinityGroups, if_neg (by omega)]
  simp

theorem genAffinityGroups_id_length {N L : Nat} (hN1 : 1 ≤ N) (hN : N ≤ 256)
    (hL : 1 ≤ L) : ∀ g ∈ genAffinityGroups N L, g.id.length = L := by
  intro g hg
  rw [genAffinityGroups, if_neg (by omega)] at hg
  rcases List.mem_cons.mp hg with rfl | hg2
  · simp [newAffinityGroup]
  · obtain ⟨i, hi, rfl⟩ := List.mem_map.mp hg2
    obtain ⟨hi1, hiN⟩ := List.mem_range'_1.mp hi
    have hiN2 : i < N := by omega
    simpa [newAffinityGroup] using genId_length hN1 hN hL hi1 hiN2

theorem genAffinityGroups_sorted {N L : Nat} (hN1 : 1 ≤ N) (hN : N ≤ 256)
    (hL : 1 ≤ L) :
    (genAffinityGroups N L).Pairwise (fun a b => bytesLt a.id b.id) := by
  rw [genAffinityGroups, if_neg (by omega)]
  refine List.pairwise_cons.mpr ⟨?_, ?_⟩
  · intro g hg
    obtain ⟨i, hi, rfl⟩ := List.mem_map.mp hg
    obtain ⟨hi1, hiN⟩ := List.mem_range'_1.mp hi
    have hiN2 : i < N := by omega
    simpa [newAffinityGroup] using zeroId_lt_genId hN1 hN hL hi1 hiN2
  · refine List.pairwise_map.mpr ?_
    have hpw : (List.range' 1 (N - 1)).Pairwise (· < ·) := List.pairwise_lt_range' 1 (N - 1)
    refine List.Pairwise.imp_of_mem ?_ hpw
    intro a b ha hb hab
    obtain ⟨ha1, haN⟩ := List.mem_range'_1.mp ha
    obtain ⟨hb1, hbN⟩ := List.mem_range'_1.mp hb
    simpa [newAffinityGroup] using genId_lt hN1 hN hL ha1 hab (by omega)

theorem sorted_id_inj {l : List AffinityGroup}
    (hsort : l.Pairwise (fun a b => bytesLt a.id b.id)) :
    ∀ x ∈ l, ∀ y ∈ l, x.id = y.id → x = y := by
  induction l with
  | nil =>
    intro x hx
    simp at hx
  | cons a rest ih =>
    intro x hx y hy hxy
    rcases List.mem_cons.mp hx with rfl | hx2
    · rcases List.mem_cons.mp hy with rfl | hy2
      · rfl
      · exfalso
        have hlt := (List.pairwise_cons.mp hsort).1 y hy2
        rw [hxy] at hlt
        exact bytesLt_irrefl y.id hlt
    · rcases List.mem_cons.mp hy with rfl | hy2
      · exfalso
        have hlt := (List.pairwise_cons.mp hsort).1 x hx2
        rw [hxy] at hlt
        exact bytesLt_irrefl y.id hlt
      · exact ih (List.pairwise_cons.mp hsort).2 x hx2 y hy2 hxy

/-- Claim C1, amended: additionally requiring numGroups ≤ 256, the largest
group count for which all generated boundaries keep the digest length and so
stay sorted under bytes.Compare. For every 1 ≤ N ≤ 256, hash byte-length
L ≥ 1, and hash value v of L bytes, get on the group list produced by
genAffinityGroups terminates with exactly one group, the unique group with
the greatest lowerBoundary ≤ v. -/
theorem claim_C1 {N L : Nat} (hN1 : 1 ≤ N) (hN : N ≤ 256) (hL : 1 ≤ L)
    (v : List Nat) (hv : v.length = L) (hvb : isBytes v) :
    ∃ g, agGet (genAffinityGroups N L) v = some g ∧
      isClosest (genAffinityGroups N L) v g ∧
      ∀ g2, isClosest (genAffinityGroups N L) v g2 → g2 = g := by
  have hlen := genAffinityGroups_length (L := L) hN1
  have hsort := genAffinityGroups_sorted hN1 hN hL
  have hne : genAffinityGroups N L ≠ [] := by
    intro hcon
    rw [hcon] at hlen
    simp at hlen
    omega
  have hhead : ∀ g0, (genAffinityGroups N L)[0]? = some g0 → bytesLe g0.id v := by
    intro g0 hg0
    rw [genAffinityGroups_head hN1] at hg0
    obtain rfl : newAffinityGroup (List.replicate L 0) 0 = g0 := Option.some.inj hg0
    show bytesLe (List.replicate L 0) v
    apply bytesLe_of_val_le (by simp [hv]) (isBytes_replicate_zero L) hvb
    rw [fromBytesBE_replicate_zero]
    exact Nat.zero_le _
  obtain ⟨g, hg, hcl⟩ := agGetLoop_closest (genAffinityGroups N L).length
    (genAffinityGroups N L) (genAffinityGroups N L).length v rfl hne (le_refl _)
    hsort hhead
  refine ⟨g, hg, hcl, ?_⟩
  intro g2 h2
  have h1le : bytesLe g2.id g.id := hcl.2.2 g2 h2.1 h2.2.1
  have h2le : bytesLe g.id g2.id := h2.2.2 g hcl.1 hcl.2.1
  exact sorted_id_inj hsort g2 h2.1 g hcl.1 (bytesLe_antisymm h1le h2le)

/-- Witness for claim C1: two groups over a one-byte keyspace and the hash
value 200, which get resolves to the upper group. -/
theorem claim_C1_witness :
    (1 ≤ 2 ∧ 2 ≤ 256 ∧ 1 ≤ 1 ∧ ([200] : List Nat).length = 1 ∧ isBytes [200]) ∧
    (∃ g, agGet (genAffinityGroups 2 1) [200] = some g ∧
      isClosest (genAffinityGroups 2 1) [200] g ∧
      ∀ g2, isClosest (genAffinityGroups 2 1) [200] g2 → g2 = g) :=
  ⟨⟨by norm_num, by norm_num, by norm_num, by decide, by decide⟩,
    claim_C1 (by norm_num) (by norm_num) (by norm_num) [200] (by decide) (by decide)⟩

/-- Counterexample to claim C1 as stated: with numGroups = 257 over a one-byte
keyspace the group size is 0, so every group above 0 gets the empty boundary
id; get on hash value [0] returns the group with boundary [] and index 256,
although group 0 with boundary [0] ≤ [0] exists and [0] is not ≤ []: the
returned group is not the group with the greatest lowerBoundary ≤ v. -/
theorem claim_C1_counterexample :
    agGet (genAffinityGroups 257 1) [0] =
      some { id := [], index := 256, m := [] } ∧
    ({ id := [0], index := 0, m := [] } : AffinityGroup) ∈ genAffinityGroups 257 1 ∧
    bytesLe [0] [0] ∧ ¬ bytesLe [0] ([] : List Nat) := by
  refine ⟨by decide, by decide, by decide, by decide⟩

/-- Claim C2, amended: additionally requiring numGroups ≤ 256 and hash
byte-length ≥ 1. genAffinityGroups returns exactly N groups, group i's lower
boundary is strictly below group i+1's, group 0's boundary is the all-zero
value, and every boundary has the digest length L. -/
theorem claim_C2 {N L : Nat} (hN1 : 1 ≤ N) (hN : N ≤ 256) (hL : 1 ≤ L) :
    (genAffinityGroups N L).length = N ∧
    (∀ (i : Nat) (h : i + 1 < (genAffinityGroups N L).length),
      bytesLt ((genAffinityGroups N L).get ⟨i, by omega⟩).id
        ((genAffinityGroups N L).get ⟨i + 1, h⟩).id) ∧
    ((genAffinityGroups N L)[0]?).map (fun g => g.id) = some (List.replicate L 0) ∧
    ∀ g ∈ genAffinityGroups N L, g.id.length = L := by
  refine ⟨genAffinityGroups_length hN1, ?_, ?_, genAffinityGroups_id_length hN1 hN hL⟩
  · intro i h
    exact List.pairwise_iff_getElem.mp (genAffinityGroups_sorted hN1 hN hL)
      i (i + 1) (by omega) h (by omega)
  · rw [genAffinityGroups_head hN1]
    rfl

/-- Witness for claim C2: the two-group, one-byte configuration. -/
theorem claim_C2_witness :
    (1 ≤ 2 ∧ 2 ≤ 256 ∧ 1 ≤ 1) ∧
    ((genAffinityGroups 2 1).length = 2 ∧
    (∀ (i : Nat) (h : i + 1 < (genAffinityGroups 2 1).length),
      bytesLt ((genAffinityGroups 2 1).get ⟨i, by omega⟩).id
        ((genAffinityGroups 2 1).get ⟨i + 1, h⟩).id) ∧
    ((genAffinityGroups 2 1)[0]?).map (fun g => g.id) = some (List.replicate 1 0) ∧
    ∀ g ∈ genAffinityGroups 2 1, g.id.length = 1) :=
  ⟨⟨by norm_num, by norm_num, by norm_num⟩,
    claim_C2 (by norm_num) (by norm_num) (by norm_num)⟩

/-- Counterexample to claim C2 as stated: with numGroups = 257 and a one-byte
digest the integer group size is 0, so groups 1 and 2 both get the empty
boundary: the boundaries are not strictly increasing and do not have the
digest length 1. -/
theorem claim_C2_counterexample :
    (genAffinityGroups 257 1).length = 257 ∧
    ((genAffinityGroups 257 1)[1]?).map (fun g => g.id) = some [] ∧
    ((genAffinityGroups 257 1)[2]?).map (fun g => g.id) = some [] ∧
    ¬ bytesLt ([] : List Nat) ([] : List Nat) ∧
    ([] : List Nat).length ≠ 1 := by
  refine ⟨by decide, by decide, by decide, by decide, by decide⟩

/-- Concrete sample coordinate used by witnesses. -/
def coordZero : Coordinate := { vec := [] }

/-- Concrete sample node used by witnesses. -/
def nodeA : Node :=
  { host := "A", heartbeats := 0, lastSeen := 0, coordinates := coordZero }

/-- Concrete empty sample group used by witnesses. -/
def groupEmpty : AffinityGroup := { id := [0], index := 0, m := [] }

/-- Concrete sample group whose member "A" has heartbeat count 5. -/
def groupWithA5 : AffinityGroup :=
  { id := [0], index := 0,
    m := [("A", { host := "A", heartbeats := 5, lastSeen := 0,
                  coordinates := coordZero })] }

/-- Claim C5: addNode without force fails with AlreadyMember exactly when the
host is already a member and otherwise succeeds; addNode with force always
succeeds and overwrites; every successful addNode stamps last-seen with the
call time, so a second force-add leaves the record with the latest call's
timestamp. -/
theorem claim_C5 (g : AffinityGroup) (n : Node) (now now2 : Int) :
    ((g.addNode n false now).2 = some GroupError.nodeExists ↔
      (mapLookup n.host g.m).isSome = true) ∧
    ((mapLookup n.host g.m).isSome = false →
      (g.addNode n false now).2 = none ∧
      mapLookup n.host (g.addNode n false now).1.m = some { n with lastSeen := now }) ∧
    ((g.addNode n true now).2 = none ∧
      mapLookup n.host (g.addNode n true now).1.m = some { n with lastSeen := now }) ∧
    mapLookup n.host ((g.addNode n true now).1.addNode n true now2).1.m =
      some { n with lastSeen := now2 } := by
  refine ⟨?_, ?_, ?_, ?_⟩
  · unfold AffinityGroup.addNode
    by_cases h : (mapLookup n.host g.m).isSome
    · simp [h]
    · simp [h]
  · intro h
    unfold AffinityGroup.addNode
    simp [h, mapLookup_mapInsert_self]
  · unfold AffinityGroup.addNode
    simp [mapLookup_mapInsert_self]
  · unfold AffinityGroup.addNode
    simp [mapLookup_mapInsert_self]

/-- Witness for claim C5: adding node "A" to the empty group. -/
theorem claim_C5_witness :
    ((groupEmpty.addNode nodeA false 1).2 = some GroupError.nodeExists ↔
      (mapLookup nodeA.host groupEmpty.m).isSome = true) ∧
    ((mapLookup nodeA.host groupEmpty.m).isSome = false →
      (groupEmpty.addNode nodeA false 1).2 = none ∧
      mapLookup nodeA.host (groupEmpty.addNode nodeA false 1).1.m =
        some { nodeA with lastSeen := 1 }) ∧
    ((groupEmpty.addNode nodeA true 1).2 = none ∧
      mapLookup nodeA.host (groupEmpty.addNode nodeA true 1).1.m =
        some { nodeA with lastSeen := 1 }) ∧
    mapLookup nodeA.host
        ((groupEmpty.addNode nodeA true 1).1.addNode nodeA true 2).1.m =
      some { nodeA with lastSeen := 2 } :=
  claim_C5 groupEmpty nodeA 1 2

/-- Claim C6: pingNode fails with NotFound exactly when the host is absent;
otherwise it adds one to the heartbeat counter, stamps last-seen with the call
time, and stores a clone of the supplied coordinate; rtt has no effect on the
stored record; two successive pings with non-decreasing call times give
strictly increasing heartbeat counts and non-decreasing last-seen values. -/
theorem claim_C6 (g : AffinityGroup) (h : String) (c : Coordinate)
    (rtt rtt2 : Nat) (now : Int) :
    (mapLookup h g.m = none →
      g.pingNode h c rtt now = (g, some (GroupError.nodeNotFound h))) ∧
    (∀ nd, mapLookup h g.m = some nd →
      (g.pingNode h c rtt now).2 = none ∧
      mapLookup h (g.pingNode h c rtt now).1.m =
        some { nd with heartbeats := nd.heartbeats + 1, lastSeen := now,
                       coordinates := c.clone }) ∧
    g.pingNode h c rtt now = g.pingNode h c rtt2 now ∧
    (∀ now2, now ≤ now2 → ∀ nd, mapLookup h g.m = some nd →
      ∃ nd1 nd2,
        mapLookup h (g.pingNode h c rtt now).1.m = some nd1 ∧
        mapLookup h ((g.pingNode h c rtt now).1.pingNode h c rtt2 now2).1.m =
          some nd2 ∧
        nd.heartbeats < nd1.heartbeats ∧ nd1.heartbeats < nd2.heartbeats ∧
        nd1.lastSeen ≤ nd2.lastSeen) := by
  refine ⟨?_, ?_, ?_, ?_⟩
  · intro hnone
    unfold AffinityGroup.pingNode
    rw [hnone]
  · intro nd hnd
    unfold AffinityGroup.pingNode
    rw [hnd]
    simp [mapLookup_mapInsert_self]
  · unfold AffinityGroup.pingNode
    rcases mapLookup h g.m with _ | nd <;> rfl
  · intro now2 hle nd hnd
    unfold AffinityGroup.pingNode
    rw [hnd]
    dsimp only
    rw [mapLookup_mapInsert_self]
    dsimp only
    rw [mapLookup_mapInsert_self]
    refine ⟨_, _, rfl, rfl, ?_, ?_, ?_⟩
    · simp
    · simp
    · simpa using hle

/-- Witness for claim C6: pinging member "A" of the sample group twice. -/
theorem claim_C6_witness :
    (mapLookup "A" groupWithA5.m = none →
      groupWithA5.pingNode "A" coordZero 7 1 =
        (groupWithA5, some (GroupError.nodeNotFound "A"))) ∧
    (∀ nd, mapLookup "A" groupWithA5.m = some nd →
      (groupWithA5.pingNode "A" coordZero 7 1).2 = none ∧
      mapLookup "A" (groupWithA5.pingNode "A" coordZero 7 1).1.m =
        some { nd with heartbeats := nd.heartbeats + 1, lastSeen := 1,
                       coordinates := coordZero.clone }) ∧
    groupWithA5.pingNode "A" coordZero 7 1 = groupWithA5.pingNode "A" coordZero 9 1 ∧
    (∀ now2, (1 : Int) ≤ now2 → ∀ nd, mapLookup "A" groupWithA5.m = some nd →
      ∃ nd1 nd2,
        mapLookup "A" (groupWithA5.pingNode "A" coordZero 7 1).1.m = some nd1 ∧
        mapLookup "A"
            ((groupWithA5.pingNode "A" coordZero 7 1).1.pingNode "A" coordZero 9 now2).1.m =
          some nd2 ∧
        nd.heartbeats < nd1.heartbeats ∧ nd1.heartbeats < nd2.heartbeats ∧
        nd1.lastSeen ≤ nd2.lastSeen) :=
  claim_C6 groupWithA5 "A" coordZero 7 9 1

/-- Claim C10: whenever addNode (without force, host present), removeNode
(host absent) or pingNode (host absent) returns an error, the group state of
the state-passing translation is exactly the input group: the membership map
and every stored record are unchanged. -/
theorem claim_C10 (g : AffinityGroup) (n : Node) (h : String) (c : Coordinate)
    (rtt : Nat) (now : Int) :
    (∀ e, (g.addNode n false now).2 = some e → (g.addNode n false now).1 = g) ∧
    (∀ e, (g.removeNode h).2 = some e → (g.removeNode h).1 = g) ∧
    (∀ e, (g.pingNode h c rtt now).2 = some e → (g.pingNode h c rtt now).1 = g) := by
  refine ⟨?_, ?_, ?_⟩
  · intro e he
    unfold AffinityGroup.addNode at he ⊢
    by_cases hc : (mapLookup n.host g.m).isSome
    · simp [hc]
    · simp [hc] at he
  · intro e he
    unfold AffinityGroup.removeNode at he ⊢
    by_cases hc : (mapLookup h g.m).isSome
    · simp [hc] at he
    · simp [hc]
  · intro e he
    unfold AffinityGroup.pingNode at he ⊢
    rcases hl : mapLookup h g.m with _ | nd
    · rfl
    · rw [hl] at he
      simp at he

/-- A mutating call on one affinity group together with its time argument. -/
inductive GroupOp
  | add (n : Node) (force : Bool) (now : Int)
  | ping (hostname : String) (c : Coordinate) (rtt : Nat) (now : Int)
  | remove (hostname : String)
deriving DecidableEq, Repr

/-- Applies one call: the group state after the call (a failing call leaves
the state unchanged). -/
def applyGroupOp (g : AffinityGroup) : GroupOp → AffinityGroup
  | .add n force now => (g.addNode n force now).1
  | .ping hn c rtt now => (g.pingNode hn c rtt now).1
  | .remove hn => (g.removeNode hn).1

/-- Runs a sequence of calls from an initial group state. -/
def runGroupOps (g : AffinityGroup) (ops : List GroupOp) : AffinityGroup :=
  ops.foldl applyGroupOp g

/-- The operations that force-add a record for host `h` (the one case that
overwrites an existing record wholesale). -/
def opForcesHost (h : String) : GroupOp → Prop
  | .add n force _ => force = true ∧ n.host = h
  | _ => False

instance (h : String) (op : GroupOp) : Decidable (opForcesHost h op) :=
  match op with
  | .add n force _ => inferInstanceAs (Decidable (force = true ∧ n.host = h))
  | .ping _ _ _ _ => inferInstanceAs (Decidable False)
  | .remove _ => inferInstanceAs (Decidable False)

theorem heartbeats_step (g : AffinityGroup) (op : GroupOp) (h : String)
    (hop : ¬ opForcesHost h op) (nd nd2 : Node)
    (h1 : mapLookup h g.m = some nd)
    (h2 : mapLookup h (applyGroupOp g op).m = some nd2) :
    nd.heartbeats ≤ nd2.heartbeats := by
  cases op with
  | add n force now =>
    replace h2 : mapLookup h (g.addNode n force now).1.m = some nd2 := h2
    unfold AffinityGroup.addNode at h2
    by_cases hcond : ((mapLookup n.host g.m).isSome && !force) = true
    · rw [if_pos hcond] at h2
      dsimp only at h2
      rw [h1] at h2
      have heq : nd = nd2 := Option.some.inj h2
      rw [heq]
    · rw [if_neg hcond] at h2
      dsimp only at h2
      by_cases hhost : n.host = h
      · subst hhost
        rw [h1] at hcond
        simp at hcond
        exact absurd ⟨hcond, rfl⟩ hop
      · rw [mapLookup_mapInsert_other (Ne.symm hhost)] at h2
        rw [h1] at h2
        have heq : nd = nd2 := Option.some.inj h2
        rw [heq]
  | ping hn c rtt now =>
    replace h2 : mapLookup h (g.pingNode hn c rtt now).1.m = some nd2 := h2
    unfold AffinityGroup.pingNode at h2
    rcases hl : mapLookup hn g.m with _ | nd3
    · rw [hl] at h2
      dsimp only at h2
      rw [h1] at h2
      have heq : nd = nd2 := Option.some.inj h2
      rw [heq]
    · rw [hl] at h2
      dsimp only at h2
      by_cases hh : hn = h
      · subst hh
        rw [h1] at hl
        obtain rfl : nd = nd3 := Option.some.inj hl
        rw [mapLookup_mapInsert_self] at h2
        have hsub := Option.some.inj h2
        subst hsub
        simp
      · rw [mapLookup_mapInsert_other (Ne.symm hh)] at h2
        rw [h1] at h2
        have heq : nd = nd2 := Option.some.inj h2
        rw [heq]
  | remove hn =>
    replace h2 : mapLookup h (g.removeNode hn).1.m = some nd2 := h2
    unfold AffinityGroup.removeNode at h2
    by_cases hc : (mapLookup hn g.m).isSome
    · rw [if_pos hc] at h2
      dsimp only at h2
      by_cases hh : hn = h
      · subst hh
        rw [mapLookup_mapErase_self] at h2
        exact Option.noConfusion h2
      · rw [mapLookup_mapErase_other (Ne.symm hh)] at h2
        rw [h1] at h2
        have heq : nd = nd2 := Option.some.inj h2
        rw [heq]
    · rw [if_neg hc] at h2
      dsimp only at h2
      rw [h1] at h2
      have heq : nd = nd2 := Option.some.inj h2
      rw [heq]

/-- Claim C7, amended: for every host and every sequence of affinity-group
operations that contains no forced addNode for that host, as long as the host
is a member in every intermediate state, the heartbeat counter stored in its
node record never decreases. (A forced addNode overwrites the whole record
with the caller's node and can reset the counter, see the counterexample.) -/
theorem claim_C7 (g : AffinityGroup) (ops : List GroupOp) (h : String)
    (hforce : ∀ op ∈ ops, ¬ opForcesHost h op)
    (hmember : ∀ k, k ≤ ops.length →
      (mapLookup h (runGroupOps g (ops.take k)).m).isSome = true) :
    ∀ k2 k1, k1 ≤ k2 → k2 ≤ ops.length →
      ∀ a b,
        (mapLookup h (runGroupOps g (ops.take k1)).m).map
          (fun nd => nd.heartbeats) = some a →
        (mapLookup h (runGroupOps g (ops.take k2)).m).map
          (fun nd => nd.heartbeats) = some b →
        a ≤ b := by
  intro k2
  induction k2 with
  | zero =>
    intro k1 hle hk2 a b ha hb
    have hk1 : k1 = 0 := by omega
    subst hk1
    rw [ha] at hb
    exact le_of_eq (Option.some.inj hb)
  | succ k2 ih =>
    intro k1 hle hk2 a b ha hb
    rcases Nat.lt_or_ge k1 (k2 + 1) with hlt | hge
    · have hk2len : k2 ≤ ops.length := by omega
      have hk2lt : k2 < ops.length := by omega
      obtain ⟨ndmid, hndmid⟩ := Option.isSome_iff_exists.mp (hmember k2 hk2len)
      have hmid : (mapLookup h (runGroupOps g (ops.take k2)).m).map
          (fun nd => nd.heartbeats) = some ndmid.heartbeats := by
        rw [hndmid]
        rfl
      have hstep1 : a ≤ ndmid.heartbeats := ih k1 (by omega) hk2len a _ ha hmid
      have htake : ops.take (k2 + 1) = ops.take k2 ++ [ops.get ⟨k2, hk2lt⟩] := by
        rw [List.take_succ, List.getElem?_eq_getElem hk2lt]
        rfl
      obtain ⟨nd2, hnd2, hnd2b⟩ := Option.map_eq_some'.mp hb
      have hrun : runGroupOps g (ops.take (k2 + 1)) =
          applyGroupOp (runGroupOps g (ops.take k2)) (ops.get ⟨k2, hk2lt⟩) := by
        rw [htake]
        unfold runGroupOps
        rw [List.foldl_append]
        rfl
      rw [hrun] at hnd2
      have hstep2 := heartbeats_step (runGroupOps g (ops.take k2)) (ops.get ⟨k2, hk2lt⟩) h
        (hforce _ (List.getElem_mem hk2lt)) ndmid nd2 hndmid hnd2
      omega
    · have hk1 : k1 = k2 + 1 := by omega
      subst hk1
      rw [ha] at hb
      exact le_of_eq (Option.some.inj hb)

/-- Witness for claim C7: one ping of member "A" raises its heartbeat count
from 5 to 6, and the theorem yields the monotonicity 5 ≤ 6. -/
theorem claim_C7_witness :
    (∀ op ∈ ([GroupOp.ping "A" coordZero 3 1] : List GroupOp),
      ¬ opForcesHost "A" op) ∧
    (mapLookup "A"
        (runGroupOps groupWithA5 ([GroupOp.ping "A" coordZero 3 1].take 0)).m).map
      (fun nd => nd.heartbeats) = some 5 ∧
    (mapLookup "A"
        (runGroupOps groupWithA5 ([GroupOp.ping "A" coordZero 3 1].take 1)).m).map
      (fun nd => nd.heartbeats) = some 6 ∧
    (5 : Nat) ≤ 6 :=
  ⟨by decide, by decide, by decide,
    claim_C7 groupWithA5 [GroupOp.ping "A" coordZero 3 1] "A" (by decide) (by decide)
      1 0 (by omega) (by decide) 5 6 (by decide) (by decide)⟩

/-- Counterexample to claim C7 as stated: a forced addNode of a fresh record
for host "A" (heartbeats 0) over the member with heartbeats 5 leaves "A" a
member while its heartbeat counter drops from 5 to 0. -/
theorem claim_C7_counterexample :
    (mapLookup "A" groupWithA5.m).map (fun nd => nd.heartbeats) = some 5 ∧
    (mapLookup "A" (runGroupOps groupWithA5 [GroupOp.add nodeA true 1]).m).map
      (fun nd => nd.heartbeats) = some 0 :=
  ⟨by decide, by decide⟩

/-- Modelled from the spec: the host-tuple value stored in the Tuple
Directory (the type `TupleHost` is not among the provided sources); the core
needs only its raw bytes, which are hashed during lookup, and an opaque
string form used as the group-membership key. -/
structure TupleHost where
  data : List Nat
deriving DecidableEq, Repr

/-- Modelled from the spec: `InmemTuples`, the mapping from content key to the
set of hosts serving it (its implementation is not among the provided
sources; behaviour follows spec section 4.3 and the shipped test). -/
structure InmemTuples where
  m : List (List Nat × List TupleHost)
deriving DecidableEq, Repr

/-- Modelled from the spec: `NewInmemTuples` starts empty. -/
def NewInmemTuples : InmemTuples := ⟨[]⟩

/-- Modelled from the spec: lookup of a key's host set. -/
def tuplesLookup (key : List Nat) :
    List (List Nat × List TupleHost) → Option (List TupleHost)
  | [] => none
  | kv :: rest => if kv.1 = key then some kv.2 else tuplesLookup key rest

/-- Modelled from the spec: set insert into one host set, a no-op when the
host is already present. -/
def hostsAdd (h : TupleHost) (hs : List TupleHost) : List TupleHost :=
  if h ∈ hs then hs else hs ++ [h]

/-- Modelled from the spec: `insert(key, host)` (`Add` in the test) adds the
host to the key's set, creating the entry on first insert. -/
def tuplesInsertAux (key : List Nat) (host : TupleHost) :
    List (List Nat × List TupleHost) → List (List Nat × List TupleHost)
  | [] => [(key, [host])]
  | kv :: rest =>
    if kv.1 = key then (kv.1, hostsAdd host kv.2) :: rest
    else kv :: tuplesInsertAux key host rest

/-- Modelled from the spec: the directory insert. -/
def InmemTuples.insert (t : InmemTuples) (key : List Nat) (host : TupleHost) :
    InmemTuples :=
  ⟨tuplesInsertAux key host t.m⟩

/-- Modelled from the spec: `delete(key, host)` (`Del` in the test) removes
the host from the key's set, a no-op when absent. -/
def tuplesDeleteAux (key : List Nat) (host : TupleHost) :
    List (List Nat × List TupleHost) → List (List Nat × List TupleHost)
  | [] => []
  | kv :: rest =>
    if kv.1 = key then (kv.1, kv.2.filter (fun h2 => h2 ≠ host)) :: rest
    else kv :: tuplesDeleteAux key host rest

/-- Modelled from the spec: the directory per-host delete. -/
def InmemTuples.del (t : InmemTuples) (key : List Nat) (host : TupleHost) :
    InmemTuples :=
  ⟨tuplesDeleteAux key host t.m⟩

/-- Modelled from the spec: `expireHost(host)` removes the host from every
key's set and reports whether any key contained it. -/
def InmemTuples.expireHost (t : InmemTuples) (host : TupleHost) :
    Bool × InmemTuples :=
  (t.m.any (fun kv => kv.2.contains host),
    ⟨t.m.map (fun kv => (kv.1, kv.2.filter (fun h2 => h2 ≠ host)))⟩)

theorem hostsAdd_mem (h : TupleHost) (hs : List TupleHost) : h ∈ hostsAdd h hs := by
  unfold hostsAdd
  by_cases hmem : h ∈ hs
  · rwa [if_pos hmem]
  · rw [if_neg hmem]
    simp

theorem hostsAdd_idem (h : TupleHost) (hs : List TupleHost) :
    hostsAdd h (hostsAdd h hs) = hostsAdd h hs := by
  unfold hostsAdd
  rw [if_pos]
  exact hostsAdd_mem h hs

/-- Claim C3: tuple-directory set semantics: inserting the same (key, host)
pair twice leaves the directory unchanged; deleting a host absent from a
key's set (or a missing key) is a no-op; expireHost removes the host from
every key's set and returns true exactly when some key contained it. -/
theorem claim_C3 (t : InmemTuples) (key : List Nat) (host : TupleHost) :
    (t.insert key host).insert key host = t.insert key host ∧
    (∀ hs, tuplesLookup key t.m = some hs → host ∉ hs → t.del key host = t) ∧
    (tuplesLookup key t.m = none → t.del key host = t) ∧
    ((t.expireHost host).1 = true ↔ ∃ kv ∈ t.m, host ∈ kv.2) ∧
    (∀ key2, tuplesLookup key2 (t.expireHost host).2.m =
      (tuplesLookup key2 t.m).map (fun hs => hs.filter (fun h2 => h2 ≠ host))) := by
  obtain ⟨m⟩ := t
  refine ⟨?_, ?_, ?_, ?_, ?_⟩
  · show InmemTuples.mk (tuplesInsertAux key host (tuplesInsertAux key host m)) = _
    congr 1
    induction m with
    | nil => simp [tuplesInsertAux, hostsAdd]
    | cons kv rest ih =>
      by_cases hk : kv.1 = key
      · simp [tuplesInsertAux, hk, hostsAdd_idem]
      · simp [tuplesInsertAux, hk, ih]
  · intro hs hlook hmem
    show InmemTuples.mk (tuplesDeleteAux key host m) = _
    congr 1
    induction m with
    | nil => rfl
    | cons kv rest ih =>
      simp only [tuplesLookup] at hlook
      by_cases hk : kv.1 = key
      · rw [if_pos hk] at hlook
        obtain rfl : kv.2 = hs := Option.some.inj hlook
        simp only [tuplesDeleteAux, if_pos hk]
        rw [List.filter_eq_self.mpr (fun a ha => by
          simp only [decide_eq_true_eq, ne_eq]
          intro hcon
          exact hmem (hcon ▸ ha))]
      · rw [if_neg hk] at hlook
        simp only [tuplesDeleteAux, if_neg hk]
        rw [ih hlook]
  · intro hlook
    show InmemTuples.mk (tuplesDeleteAux key host m) = _
    congr 1
    induction m with
    | nil => rfl
    | cons kv rest ih =>
      simp only [tuplesLookup] at hlook
      by_cases hk : kv.1 = key
      · rw [if_pos hk] at hlook
        exact Option.noConfusion hlook
      · rw [if_neg hk] at hlook
        simp only [tuplesDeleteAux, if_neg hk]
        rw [ih hlook]
  · show (List.any m fun kv => kv.2.contains host) = true ↔ _
    rw [List.any_eq_true]
    constructor
    · rintro ⟨kv, hkv, hc⟩
      exact ⟨kv, hkv, List.elem_iff.mp hc⟩
    · rintro ⟨kv, hkv, hc⟩
      exact ⟨kv, hkv, List.elem_iff.mpr hc⟩
  · intro key2
    show tuplesLookup key2 (m.map _) = (tuplesLookup key2 m).map _
    induction m with
    | nil => rfl
    | cons kv rest ih =>
      simp only [List.map_cons, tuplesLookup]
      by_cases hk : kv.1 = key2
      · rw [if_pos hk, if_pos hk]
        rfl
      · rw [if_neg hk, if_neg hk]
        exact ih

/-- Concrete sample hosts used by witnesses. -/
def hostA : TupleHost := ⟨[1]⟩

/-- A second concrete sample host. -/
def hostB : TupleHost := ⟨[2]⟩

/-- The spec example directory: insert (k1, A), (k2, A), (k2, B). -/
def tExample : InmemTuples :=
  ((NewInmemTuples.insert [107, 49] hostA).insert [107, 50] hostA).insert
    [107, 50] hostB

/-- Witness for claim C3: on the spec example, deleting an absent host is a
no-op; a double insert collapses; expireHost of A returns true and leaves
k1 with no hosts and k2 with only B. -/
theorem claim_C3_witness :
    (tExample.insert [107, 49] hostA).insert [107, 49] hostA =
      tExample.insert [107, 49] hostA ∧
    tExample.del [107, 49] hostB = tExample ∧
    (tExample.expireHost hostA).1 = true ∧
    tuplesLookup [107, 49] (tExample.expireHost hostA).2.m = some [] ∧
    tuplesLookup [107, 50] (tExample.expireHost hostA).2.m = some [hostB] :=
  ⟨(claim_C3 tExample [107, 49] hostA).1,
    (claim_C3 tExample [107, 49] hostB).2.1 [hostA] (by decide) (by decide),
    by decide, by decide, by decide⟩

/-- Errors of the Tuple Directory reads: `NotFound` when a key has no
entry (modelled from the spec). -/
inductive TuplesError
  | notFound
deriving DecidableEq, Repr

/-- Modelled from the spec: `get(key)` of the Tuple Directory: the key's host
list, or NotFound when the key has no entry (`lrpc.tuples.Get` in the
source facade). -/
def InmemTuples.get (t : InmemTuples) (key : List Nat) :
    Except TuplesError (List TupleHost) :=
  match tuplesLookup key t.m with
  | none => .error .notFound
  | some hs => .ok hs

/-- The type `localGroup` from the source: the local group index, the tuple
directory, and the full group list; the configured hash function and the
external `TupleHost.String` rendering appear as explicit parameters of the
operations. -/
structure LocalGroup where
  idx : Nat
  tuples : InmemTuples
  groups : List AffinityGroup

/-- The method `localGroup.Lookup`: reads the tuple directory for the key;
for each returned host tuple it hashes that value, locates its affinity group
with get, and keeps the group's member record stored under the tuple's string
key, silently skipping tuples whose group has no matching member. -/
def LocalGroup.lookup (hashFn : List Nat → List Nat) (strFn : TupleHost → String)
    (lg : LocalGroup) (key : List Nat) : Except TuplesError (List Node) :=
  match lg.tuples.get key with
  | .error e => .error e
  | .ok tuples =>
    .ok (tuples.filterMap (fun tuple =>
      match agGet lg.groups (hashFn tuple.data) with
      | none => none
      | some tg => tg.getNode (strFn tuple)))

theorem agGetLoopAux_isSome : ∀ (f : Nat) (arr : List AffinityGroup) (l : Nat)
    (id : List Nat), arr ≠ [] → arr.length ≤ f →
    ∃ g, agGetLoopAux l id f arr = some g := by
  intro f
  induction f with
  | zero =>
    intro arr l id hne hlen
    exact absurd (List.length_eq_zero.mp (by omega)) hne
  | succ f ih =>
    intro arr l id hne hlen
    have hpos : 0 < arr.length := List.length_pos.mpr hne
    have hmid : arr.length / 2 < arr.length := by omega
    have hget : arr[arr.length / 2]? = some (arr.get ⟨arr.length / 2, hmid⟩) :=
      List.getElem?_eq_getElem hmid
    simp only [agGetLoopAux]
    by_cases hc : arr.length / 2 ≠ 0 ∧ arr.length / 2 ≠ l
    · rw [if_pos hc, hget]
      dsimp only
      rcases hcmp : bytesCompare id (arr.get ⟨arr.length / 2, hmid⟩).id with _ | _ | _
      · have h1 := hc.1
        apply ih
        · apply List.length_pos.mp
          simp only [List.length_take]
          omega
        · simp only [List.length_take]
          omega
      · dsimp only
        exact ⟨_, rfl⟩
      · have h1 := hc.1
        apply ih
        · apply List.length_pos.mp
          simp only [List.length_drop]
          omega
        · simp only [List.length_drop]
          omega
    · rw [if_neg hc]
      exact ⟨_, hget⟩

theorem agGet_isSome (ct : List AffinityGroup) (id : List Nat) (hne : ct ≠ []) :
    ∃ g, agGet ct id = some g := by
  unfold agGet agGetLoop
  exact agGetLoopAux_isSome ct.length ct ct.length id hne (le_refl _)

/-- Claim C4: for every key with an entry in the tuple directory, lookup
returns without error exactly the node records of those host tuples whose
hashed value locates a group currently listing the tuple's string form as a
member; tuples without a matching member are silently omitted, and every
tuple does resolve to some group (no panic) when the group list is
nonempty. -/
theorem claim_C4 (hashFn : List Nat → List Nat) (strFn : TupleHost → String)
    (lg : LocalGroup) (key : List Nat) (hgr : lg.groups ≠ []) :
    ∀ hs, tuplesLookup key lg.tuples.m = some hs →
      ∃ l, LocalGroup.lookup hashFn strFn lg key = Except.ok l ∧
        (∀ node, node ∈ l ↔ ∃ tuple ∈ hs, ∃ tg,
          agGet lg.groups (hashFn tuple.data) = some tg ∧
          tg.getNode (strFn tuple) = some node) ∧
        ∀ tuple ∈ hs, (agGet lg.groups (hashFn tuple.data)).isSome = true := by
  intro hs hhs
  unfold LocalGroup.lookup InmemTuples.get
  rw [hhs]
  dsimp only
  refine ⟨_, rfl, ?_, ?_⟩
  · intro node
    rw [List.mem_filterMap]
    constructor
    · rintro ⟨tuple, htuple, hf⟩
      rcases hag : agGet lg.groups (hashFn tuple.data) with _ | tg
      · rw [hag] at hf
        dsimp only at hf
        exact Option.noConfusion hf
      · rw [hag] at hf
        dsimp only at hf
        exact ⟨tuple, htuple, tg, hag, hf⟩
    · rintro ⟨tuple, htuple, tg, hag, hnode⟩
      refine ⟨tuple, htuple, ?_⟩
      rw [hag]
      dsimp only
      exact hnode
  · intro tuple htuple
    obtain ⟨g, hg⟩ := agGet_isSome lg.groups (hashFn tuple.data) hgr
    rw [hg]
    rfl

/-- A concrete facade state for the lookup witness: the directory maps key
[1] to host A, and group 1 holds the member record of "A". -/
def lgExample : LocalGroup :=
  { idx := 0, tuples := ⟨[([1], [hostA])]⟩,
    groups := [groupEmpty, { id := [128], index := 1, m := [("A", nodeA)] }] }

/-- Witness for claim C4: on the concrete facade state, with a hash landing in
group 1 and the tuple rendering to "A", lookup of key [1] succeeds and
returns exactly node A's record. -/
theorem claim_C4_witness :
    (∃ l, LocalGroup.lookup (fun _ => [200]) (fun _ => "A") lgExample [1] =
        Except.ok l ∧
      (∀ node, node ∈ l ↔ ∃ tuple ∈ [hostA], ∃ tg,
        agGet lgExample.groups ((fun _ => [200]) tuple.data) = some tg ∧
        tg.getNode ((fun _ => "A") tuple) = some node) ∧
      ∀ tuple ∈ [hostA],
        (agGet lgExample.groups ((fun _ => [200]) tuple.data)).isSome = true) ∧
    LocalGroup.lookup (fun _ => [200]) (fun _ => "A") lgExample [1] =
      Except.ok [nodeA] :=
  ⟨claim_C4 (fun _ => [200]) (fun _ => "A") lgExample [1] (by decide) [hostA]
      (by decide),
    by rfl⟩

/-- The snapshot tuple entry (`Tuple` in the source): a key and the raw host
values serving it. -/
structure Tuple where
  key : List Nat
  hosts : List (List Nat)
deriving DecidableEq, Repr

/-- A point-in-time copy of all tuples and all known nodes (`Snapshot` in the
source). -/
structure Snapshot where
  tuples : List Tuple
  nodes : List Node
deriving DecidableEq, Repr

/-- Modelled from the spec: the directory iterator `InmemTuples.Iter` visits
every (key, hosts) pair, threading the visitor state explicitly and stopping
early when the visitor returns false. -/
def tuplesIterAux {σ : Type} (f : σ → List Nat × List TupleHost → σ × Bool) :
    List (List Nat × List TupleHost) → σ → σ
  | [], s => s
  | kv :: rest, s =>
    let r := f s kv
    if r.2 then tuplesIterAux f rest r.1 else r.1

/-- Modelled from the spec: the directory iterator entry point. -/
def InmemTuples.iter {σ : Type} (t : InmemTuples)
    (f : σ → List Nat × List TupleHost → σ × Bool) (s : σ) : σ :=
  tuplesIterAux f t.m s

/-- The inner loop of `affinityGroups.iterNodes` over one group's node
copies; the Bool records whether iteration should continue. -/
def iterNodesInner {σ : Type} (f : σ → Node → σ × Bool) :
    List Node → σ → σ × Bool
  | [], s => (s, true)
  | nd :: rest, s =>
    let r := f s nd
    if r.2 then iterNodesInner f rest r.1 else (r.1, false)

/-- The method `affinityGroups.iterNodes`: visits every node of every group
in order, stopping early when the visitor returns false. -/
def iterNodesAux {σ : Type} (f : σ → Node → σ × Bool) :
    List AffinityGroup → σ → σ
  | [], s => s
  | g :: rest, s =>
    let r := iterNodesInner f g.nodes s
    if r.2 then iterNodesAux f rest r.1 else r.1

/-- The method `localGroup.Snapshot`: copies every (key, host-list) pair via
the directory iterator and every node record via iterNodes, always
continuing. -/
def LocalGroup.snapshot (lg : LocalGroup) : Snapshot :=
  { tuples := lg.tuples.iter
      (fun acc kv =>
        (acc ++ [{ key := kv.1, hosts := kv.2.map (fun h => h.data) }], true)) [],
    nodes := iterNodesAux (fun acc nd => (acc ++ [nd], true)) lg.groups [] }

theorem tuplesIterAux_append {α : Type} (mk : List Nat × List TupleHost → α) :
    ∀ (m : List (List Nat × List TupleHost)) (acc : List α),
      tuplesIterAux (fun acc kv => (acc ++ [mk kv], true)) m acc = acc ++ m.map mk := by
  intro m
  induction m with
  | nil =>
    intro acc
    simp [tuplesIterAux]
  | cons kv rest ih =>
    intro acc
    simp [tuplesIterAux, ih]

theorem iterNodesInner_append :
    ∀ (nds : List Node) (acc : List Node),
      iterNodesInner (fun acc nd => (acc ++ [nd], true)) nds acc = (acc ++ nds, true) := by
  intro nds
  induction nds with
  | nil =>
    intro acc
    simp [iterNodesInner]
  | cons nd rest ih =>
    intro acc
    simp [iterNodesInner, ih]

theorem iterNodesAux_append :
    ∀ (gs : List AffinityGroup) (acc : List Node),
      iterNodesAux (fun acc nd => (acc ++ [nd], true)) gs acc =
        acc ++ (gs.map (fun g => g.nodes)).flatten := by
  intro gs
  induction gs with
  | nil =>
    intro acc
    simp [iterNodesAux]
  | cons g rest ih =>
    intro acc
    simp [iterNodesAux, iterNodesInner_append, ih]

/-- Claim C8: the snapshot contains exactly the (key, host-list) tuples held
in the directory and exactly the node records of all groups at the time of
the call; being a value copy built from fresh lists, a previously returned
snapshot is unaffected by later mutations of the live structures in this
state-passing model. -/
theorem claim_C8 (lg : LocalGroup) :
    (lg.snapshot).tuples =
      lg.tuples.m.map (fun kv =>
        { key := kv.1, hosts := kv.2.map (fun h => h.data) }) ∧
    (lg.snapshot).nodes = (lg.groups.map (fun g => g.nodes)).flatten := by
  unfold LocalGroup.snapshot InmemTuples.iter
  constructor
  · rw [tuplesIterAux_append]
    rfl
  · rw [iterNodesAux_append]
    rfl

/-- The index one backward step away (wrapping past 0 to the last index). -/
def prevIdx (N j : Nat) : Nat := if j = 0 then N - 1 else j - 1

/-- Number of backward steps from `j` to reach `i` (for `j ≠ i`). -/
def cyclicDist (N i j : Nat) : Nat := if i < j then j - i else j + (N - i)

/-- The backward index walk from `j` (inclusive) towards `i` (exclusive),
wrapping past 0 to the last index; `c` bounds its length. -/
def backWalk (N i : Nat) : Nat → Nat → List Nat
  | _, 0 => []
  | j, c + 1 => j :: (if prevIdx N j = i then [] else backWalk N i (prevIdx N j) c)

/-- nextNonEmpty as the claim describes it: the start group itself when it has
member nodes; otherwise the first group with at least one member along the
backward walk (wrapping past 0 to the last index); none when the walk comes
back to the start group without finding one. -/
def nextNonEmptySpec (ct : List AffinityGroup) (i : Nat) : Option AffinityGroup :=
  match ct[i]? with
  | none => none
  | some g =>
    if g.nodes.length = 0 then
      ((if prevIdx ct.length i = i then [] else
          backWalk ct.length i (prevIdx ct.length i) ct.length).filterMap
        (fun k => ct[k]?)).find? (fun g2 => !(g2.nodes.length == 0))
    else some g

theorem prevGroup_eq (ct : List AffinityGroup) (j : Nat) :
    prevGroup ct j = ct[prevIdx ct.length j]? := by
  unfold prevGroup prevIdx
  by_cases h : j = 0 <;> simp [h]

theorem prevIdx_lt {N j : Nat} (hN : 1 ≤ N) (hj : j < N) : prevIdx N j < N := by
  unfold prevIdx
  split <;> omega

theorem cyclicDist_prev {N i j : Nat} (hi : i < N) (hj : j < N) (hne : j ≠ i)
    (hpne : prevIdx N j ≠ i) :
    cyclicDist N i (prevIdx N j) = cyclicDist N i j - 1 := by
  unfold cyclicDist prevIdx at *
  split_ifs at * <;> omega

theorem cyclicDist_lt {N i j : Nat} (hi : i < N) (hj : j < N) (hne : j ≠ i) :
    cyclicDist N i j < N := by
  unfold cyclicDist
  split <;> omega

theorem cyclicDist_pos {N i j : Nat} (hi : i < N) (hj : j < N) (hne : j ≠ i) :
    1 ≤ cyclicDist N i j := by
  unfold cyclicDist
  split <;> omega

theorem nextClosestLoop_walk (ct : List AffinityGroup)
    (hwf : ∀ (k : Nat) (hk : k < ct.length), (ct[k]).index = k)
    (i : Nat) (hi : i < ct.length) :
    ∀ c j (hj : j < ct.length), j ≠ i → cyclicDist ct.length i j ≤ c →
      nextClosestLoop ct i (ct[j]) c =
        some (((backWalk ct.length i j c).filterMap (fun k => ct[k]?)).find?
          (fun g2 => !(g2.nodes.length == 0))) := by
  intro c
  induction c with
  | zero =>
    intro j hj hne hdist
    exfalso
    have := cyclicDist_pos hi hj hne
    omega
  | succ c ih =>
    intro j hj hne hdist
    have hjget : ct[j]? = some (ct[j]) := List.getElem?_eq_getElem hj
    simp only [nextClosestLoop, backWalk]
    rw [List.filterMap_cons_some hjget]
    by_cases hcase : (ct[j]).nodes.length = 0
    · rw [if_pos hcase]
      rw [List.find?_cons_of_neg _ (by simp [hcase])]
      rw [hwf j hj, prevGroup_eq]
      have hpj : prevIdx ct.length j < ct.length :=
        prevIdx_lt (by omega) hj
      rw [List.getElem?_eq_getElem hpj]
      dsimp only
      rw [hwf (prevIdx ct.length j) hpj]
      by_cases hpne : prevIdx ct.length j = i
      · rw [if_neg (by simpa using hpne), if_pos hpne]
        simp
      · rw [if_pos hpne, if_neg hpne]
        have hdist2 : cyclicDist ct.length i (prevIdx ct.length j) ≤ c := by
          rw [cyclicDist_prev hi hj hne hpne]
          omega
        exact ih (prevIdx ct.length j) hpj hpne hdist2
    · rw [if_neg hcase]
      rw [List.find?_cons_of_pos _ (by simp [hcase])]

/-- Claim C9: nextClosestGroup on a well-formed group list (group k stored at
position k) returns the start group when it has members; otherwise the first
group with members walking backward through the indices with wraparound; and
none when the walk returns to the start group, in particular when every group
is empty or when a single group is empty. `nextNonEmptySpec` is the claim's
description of the walk. -/
theorem claim_C9 (ct : List AffinityGroup) (i : Nat) (hi : i < ct.length)
    (hwf : ∀ (k : Nat) (hk : k < ct.length), (ct[k]).index = k) :
    nextClosestGroup ct (ct[i]) = some (nextNonEmptySpec ct i) ∧
    ((ct[i]).nodes.length ≠ 0 →
      nextClosestGroup ct (ct[i]) = some (some (ct[i]))) ∧
    ((∀ g2 ∈ ct, g2.nodes.length = 0) →
      nextClosestGroup ct (ct[i]) = some none) := by
  have hN1 : 1 ≤ ct.length := by omega
  have higet : ct[i]? = some (ct[i]) := List.getElem?_eq_getElem hi
  have hmain : nextClosestGroup ct (ct[i]) = some (nextNonEmptySpec ct i) := by
    unfold nextClosestGroup nextNonEmptySpec
    rw [hwf i hi, higet]
    dsimp only
    simp only [nextClosestLoop]
    by_cases hcase : (ct[i]).nodes.length = 0
    · rw [if_pos hcase, if_pos hcase]
      rw [hwf i hi, prevGroup_eq]
      have hpi : prevIdx ct.length i < ct.length := prevIdx_lt hN1 hi
      rw [List.getElem?_eq_getElem hpi]
      dsimp only
      rw [hwf (prevIdx ct.length i) hpi]
      by_cases hpne : prevIdx ct.length i = i
      · rw [if_neg (by simpa using hpne), if_pos hpne]
        simp
      · rw [if_pos hpne, if_neg hpne]
        have hdist : cyclicDist ct.length i (prevIdx ct.length i) < ct.length :=
          cyclicDist_lt hi hpi hpne
        exact nextClosestLoop_walk ct hwf i hi ct.length (prevIdx ct.length i)
          hpi hpne (by omega)
    · rw [if_neg hcase, if_neg hcase]
  refine ⟨hmain, ?_, ?_⟩
  · intro hne
    rw [hmain]
    unfold nextNonEmptySpec
    rw [higet]
    dsimp only
    rw [if_neg hne]
  · intro hall
    rw [hmain]
    unfold nextNonEmptySpec
    rw [higet]
    dsimp only
    rw [if_pos (hall _ (List.getElem_mem hi))]
    have hnone : ((if prevIdx ct.length i = i then [] else
        backWalk ct.length i (prevIdx ct.length i) ct.length).filterMap
          (fun k => ct[k]?)).find? (fun g2 => !(g2.nodes.length == 0)) = none := by
      rw [List.find?_eq_none]
      intro x hx
      obtain ⟨k, _, hk2⟩ := List.mem_filterMap.mp hx
      obtain ⟨hklt, rfl⟩ := List.getElem?_eq_some.mp hk2
      simp [hall _ (List.getElem_mem hklt)]
    rw [hnone]

/-- Witness for claim C9: a two-group list where group 0 is empty and group 1
has member "A"; the search from group 0 wraps backward to group 1. -/
theorem claim_C9_witness :
    nextClosestGroup [groupEmpty, { id := [128], index := 1, m := [("A", nodeA)] }]
        (([groupEmpty, { id := [128], index := 1, m := [("A", nodeA)] }][0])) =
      some (nextNonEmptySpec [groupEmpty, { id := [128], index := 1, m := [("A", nodeA)] }] 0) ∧
    nextClosestGroup [groupEmpty, { id := [128], index := 1, m := [("A", nodeA)] }]
        (([groupEmpty, { id := [128], index := 1, m := [("A", nodeA)] }][0])) =
      some (some { id := [128], index := 1, m := [("A", nodeA)] }) :=
  ⟨(claim_C9 [groupEmpty, { id := [128], index := 1, m := [("A", nodeA)] }] 0 (by norm_num)
      (fun k hk => by
        have hk2 : k < 2 := by simpa using hk
        interval_cases k <;> rfl)).1,
    by decide⟩

/-- Witness for claim C10: the three failing calls on sample groups. -/
theorem claim_C10_witness :
    (groupWithA5.addNode nodeA false 3).1 = groupWithA5 ∧
    (groupEmpty.removeNode "Z").1 = groupEmpty ∧
    (groupEmpty.pingNode "Z" coordZero 4 3).1 = groupEmpty :=
  ⟨(claim_C10 groupWithA5 nodeA "Z" coordZero 4 3).1 GroupError.nodeExists (by decide),
    (claim_C10 groupEmpty nodeA "Z" coordZero 4 3).2.1 (GroupError.nodeNotFound "Z")
      (by decide),
    (claim_C10 groupEmpty nodeA "Z" coordZero 4 3).2.2 (GroupError.nodeNotFound "Z")
      (by decide)⟩

end Kelips
